import Mathlib

/-!
Verification development for the inventory reconciliation engine
(`src/compare_stock.py`, `src/inventory_reconcile_gui.py`,
`src/streamlit_app.py`).  Tables are embedded shallowly: a row is a total
function from column names to scalar cells (a missing column reads as the
null cell, matching a pandas cell that is absent or NaN), a table is a
column list plus a row list, and each Python function the claims touch is
translated into an executable Lean definition over this model.
-/

namespace InventoryRecon

/-! ## Cells

A cell value: `null` stands for Python `None`, pandas `NaN`/`NA`; other
cells carry an integer or a string.  Python `!=` on two non-null scalars of
these kinds agrees with decidable equality of `Scalar`.
-/

inductive Scalar where
  | null
  | int (i : Int)
  | str (s : String)
deriving DecidableEq, Repr

def Scalar.isNull : Scalar → Bool
  | .null => true
  | _ => false

/-- A row: total map from column name to cell.  Columns a row does not
carry read as `Scalar.null`, as a pandas lookup of a missing value. -/
abbrev Row := String → Scalar

def defaultRow : Row := fun _ => Scalar.null

/-- Build a row from an association list; unknown columns are null. -/
def Row.ofList (l : List (String × Scalar)) : Row := fun c =>
  match l.lookup c with
  | some v => v
  | none => Scalar.null

/-- A dataframe: its column names and its rows in order. -/
structure Table where
  cols : List String
  rows : List Row

/-! ## Quantity coercion (`inventory_reconcile_gui.py`, `parse_qty_to_int`)

The Python function takes any object; the claim's inputs are nulls and
strings, so the embedding takes `Option String` (`none` = `None`/NaN).
`decimal.Decimal`'s string conversion is modelled by `pyDecimal`: an
optional sign followed by either digits with an optional fractional part
and an optional exponent, or the infinity words, or a (possibly signaling)
NaN word.  The result is `Except Unit Int`: `.error` marks an uncaught
Python exception escaping the function.
-/

/-- A parsed Python `Decimal`: a finite value `m * 10 ^ e`, an infinity
(sign irrelevant to the claims), or a NaN. -/
inductive PyNum where
  | finite (m : Int) (e : Int)
  | infty
  | nan
deriving DecidableEq, Repr

/-- `str.strip()`'s whitespace (ASCII part, which the claims use). -/
def pyIsSpace (c : Char) : Bool :=
  c.isWhitespace || c = '\x0b' || c = '\x0c'

def trimChars (l : List Char) : List Char :=
  ((l.dropWhile pyIsSpace).reverse.dropWhile pyIsSpace).reverse

/-- ASCII lower-casing, enough for the case-insensitive spellings the
source compares against (NULL/NAN/INF/INFINITY). -/
def asciiLower (c : Char) : Char :=
  if 'A' ≤ c ∧ c ≤ 'Z' then Char.ofNat (c.toNat + 32) else c

def asciiUpper (c : Char) : Char :=
  if 'a' ≤ c ∧ c ≤ 'z' then Char.ofNat (c.toNat - 32) else c

def digitsVal (l : List Char) : Nat :=
  l.foldl (fun a c => a * 10 + (c.toNat - 48)) 0

def allDigits (l : List Char) : Bool := l.all (·.isDigit)

/-- Sign prefix: returns (isNegative, rest). -/
def parseSign : List Char → Bool × List Char
  | '+' :: rest => (false, rest)
  | '-' :: rest => (true, rest)
  | l => (false, l)

/-- Digit string with an optional decimal point: value and number of
fractional digits.  At least one digit must be present. -/
def parseMantissa (l : List Char) : Option (Nat × Nat) :=
  let ip := l.takeWhile (· ≠ '.')
  let rest := l.dropWhile (· ≠ '.')
  match rest with
  | [] => if l ≠ [] ∧ allDigits l then some (digitsVal l, 0) else none
  | _ :: frac =>
      if (ip ≠ [] ∨ frac ≠ []) ∧ allDigits ip ∧ allDigits frac then
        some (digitsVal (ip ++ frac), frac.length)
      else none

def parseExp (l : List Char) : Option Int :=
  let (negE, rest) := parseSign l
  if rest ≠ [] ∧ allDigits rest then
    some (if negE then -(digitsVal rest : Int) else (digitsVal rest : Int))
  else none

/-- The NaN spellings `decimal.Decimal` accepts (already lowercased):
`nan` or `snan`, optionally followed by diagnostic digits. -/
def isNanBody (l : List Char) : Bool :=
  match l with
  | 'n' :: 'a' :: 'n' :: ds => allDigits ds
  | 's' :: 'n' :: 'a' :: 'n' :: ds => allDigits ds
  | _ => false

/-- Models `decimal.Decimal(s)` on a string (as a character list):
surrounding whitespace is tolerated, matching is case-insensitive.
(Digit-group underscores, legal since Python 3.6, are omitted; no claim
involves them.) -/
def pyDecimal (l : List Char) : Option PyNum :=
  let t := (trimChars l).map asciiLower
  let (neg, body) := parseSign t
  if body = "inf".toList ∨ body = "infinity".toList then some PyNum.infty
  else if isNanBody body then some PyNum.nan
  else
    let mant := body.takeWhile (· ≠ 'e')
    let erest := body.dropWhile (· ≠ 'e')
    match parseMantissa mant with
    | none => none
    | some (m, frac) =>
        let sm : Int := if neg then -(m : Int) else (m : Int)
        match erest with
        | [] => some (PyNum.finite sm (-(frac : Int)))
        | _ :: ex =>
            match parseExp ex with
            | none => none
            | some e => some (PyNum.finite sm (e - (frac : Int)))

/-- `int(d.to_integral_value(rounding=ROUND_HALF_UP))` on a finite
`Decimal` `m * 10 ^ e`: ties round away from zero. -/
def decToIntHalfUp (m e : Int) : Int :=
  if 0 ≤ e then m * (10 : Int) ^ e.toNat
  else
    let d := (10 : Nat) ^ (-e).toNat
    let q := m.natAbs / d
    let r := m.natAbs % d
    let mag := if d ≤ 2 * r then q + 1 else q
    if m < 0 then -(mag : Int) else (mag : Int)

/-- Embeds `parse_qty_to_int` (inventory_reconcile_gui.py lines 91-110).
`none` is `None`/NaN; a string is `str(x)`.  Mirrors the source: empty and
NULL/NAN strings give 0; parentheses mark a negative; commas are removed;
then `Decimal(s)` is tried.  On a finite value the half-up integral value
is returned (negated when parenthesized).  On an infinity,
`int(Decimal('Infinity'))` raises OverflowError, which the source catches
nowhere (`except (InvalidOperation, ValueError)` does not match it), so
the embedding returns `.error ()`.  On NaN the int conversion raises
ValueError, caught, and the `int(float(s))` fallback raises again, giving
0; on an unparsable string the fallback `float(s)` fails the same way
(every float-accepted spelling is Decimal-accepted), giving 0. -/
def parse_qty_to_int (x : Option String) : Except Unit Int :=
  match x with
  | none => Except.ok 0
  | some raw =>
    let s0 := trimChars raw.toList
    if s0 = [] ∨ s0.map asciiUpper = "NULL".toList
        ∨ s0.map asciiUpper = "NAN".toList then Except.ok 0
    else
      let neg := s0.head? = some '(' ∧ s0.getLast? = some ')'
      let s1 := if neg then (s0.drop 1).dropLast else s0
      let s2 := s1.filter (· ≠ ',')
      match pyDecimal s2 with
      | some (PyNum.finite m e) =>
          let i := decToIntHalfUp m e
          Except.ok (if neg then -i else i)
      | some PyNum.infty => Except.error ()
      | some PyNum.nan => Except.ok 0
      | none => Except.ok 0

/-! ## Duplicate-key aggregation (`streamlit_app.py`, compare step)

The selectable duplicate-key aggregator lives in the streamlit dashboard:
rows keyed by `(sku_key, account_key)` with a coerced quantity are grouped
per key, and the quantity column is reduced by the strategy chosen from
sum / max / min / first / last (lines 248-265).
-/

inductive AggStrategy where
  | sum
  | max
  | min
  | first
  | last
deriving DecidableEq, Repr

/-- pandas `GroupBy.agg` with the chosen reducer over one group's quantity
cells, in row order.  NA cells are skipped (`skipna` semantics: `first` and
`last` take the first/last non-NA value; `sum` of an all-NA group is 0,
the other reducers give NA). -/
def aggQty (strat : AggStrategy) (vs : List (Option Int)) : Option Int :=
  let xs := vs.filterMap id
  match strat with
  | .sum => some (xs.foldl (· + ·) 0)
  | .max => xs.max?
  | .min => xs.min?
  | .first => xs.head?
  | .last => xs.getLast?

abbrev GroupKey := String × String

/-- The quantity cells carried by the rows of one key, in row order. -/
def qtysForKey (k : GroupKey) (rows : List (GroupKey × Option Int)) :
    List (Option Int) :=
  rows.filterMap fun p => if p.1 = k then some p.2 else none

/-- Embeds the streamlit duplicate aggregation: one output row per
distinct key, its quantity the strategy's reduction of that key's
quantities.  (pandas emits the groups sorted by key; the claims are
key-wise lookups, so the embedding's group order is immaterial and
first-occurrence order is kept.  The raw sku/account columns, reduced with
`first` regardless of the strategy, carry no quantity and are omitted.) -/
def aggregateDuplicates (strat : AggStrategy)
    (rows : List (GroupKey × Option Int)) : List (GroupKey × Option Int) :=
  ((rows.map Prod.fst).dedup).map fun k => (k, aggQty strat (qtysForKey k rows))

/-! ## Keyed tables (`compare_stock.py`)

`as_multi_index` (lines 85-88) copies the 1-2 chosen key columns into
standardized columns, drops rows whose key repeats an earlier row's key
(`drop_duplicates`, keep-first), and indexes by the key.  The embedding
keeps the rows and derives the key of a row by reading its key columns.
`normalize_columns` only trims whitespace around column names and is the
identity on the canonical inputs the claims quantify over, so it is not
modelled separately.
-/

/-- The composite key of a row: its values at the key columns, in order
(the standardized `__K0__`, `__K1__` columns of the source). -/
def keyOf (keyCols : List String) (r : Row) : List Scalar :=
  keyCols.map r

/-- `drop_duplicates(subset=key_cols)`: keep the first row of each key.
`seen` accumulates the keys already kept. -/
def dedupByKeyAux (keyCols : List String) (seen : List (List Scalar)) :
    List Row → List Row
  | [] => []
  | r :: rs =>
      if keyOf keyCols r ∈ seen then dedupByKeyAux keyCols seen rs
      else r :: dedupByKeyAux keyCols (keyOf keyCols r :: seen) rs

def dedupByKey (keyCols : List String) (rows : List Row) : List Row :=
  dedupByKeyAux keyCols [] rows

/-- The key index of a table under the given key columns: keys of the
deduplicated rows, in order (pandas: `df_idxed.index`). -/
def keyList (keyCols : List String) (rows : List Row) : List (List Scalar) :=
  (dedupByKey keyCols rows).map (keyOf keyCols)

/-- `df_idxed.loc[k]` on the unique index: the first row bearing key `k`. -/
def findByKey (keyCols : List String) (rows : List Row) (k : List Scalar) :
    Option Row :=
  rows.find? fun r => keyOf keyCols r == k

/-! ## Diff classification (`compare_stock.py`, `compute_diff_multi`)

Lines 94-193.  The requested compare columns are first intersected with
the columns of both frames (line 108).  Every key of the union of the two
(deduplicated) key indexes is classified: present only in the source is
`added`, only in the target `removed`; present in both, `modified` when
some effective compare column differs under the null-aware cell
comparison of lines 149-151, else `same`.
-/

inductive Change where
  | added
  | removed
  | modified
  | same
deriving DecidableEq, Repr

/-- Line 108: `[c for c in compare_cols if c in df_src.columns and c in
df_tgt.columns]`. -/
def effectiveCompareCols (src tgt : Table) (compareCols : List String) :
    List String :=
  compareCols.filter fun c => c ∈ src.cols ∧ c ∈ tgt.cols

/-- Lines 149-151: values both null compare equal (the loop `continue`s);
otherwise a null-ness mismatch or a Python `!=` marks the column as
differing. -/
def valuesDiffer (vs vt : Scalar) : Bool :=
  if vs.isNull && vt.isNull then false
  else (vs.isNull != vt.isNull) || (vs != vt)

/-- The differing effective compare columns for a key present in both
tables (the `diffs` list of the loop body). -/
def diffCols (src tgt : Table) (srcKeys tgtKeys compareCols : List String)
    (k : List Scalar) : List String :=
  let srow := (findByKey srcKeys (dedupByKey srcKeys src.rows) k).getD defaultRow
  let trow := (findByKey tgtKeys (dedupByKey tgtKeys tgt.rows) k).getD defaultRow
  (effectiveCompareCols src tgt compareCols).filter fun c =>
    valuesDiffer (srow c) (trow c)

/-- The classification of one key of the union (loop body, lines
133-160). -/
def classifyKey (src tgt : Table) (srcKeys tgtKeys compareCols : List String)
    (k : List Scalar) : Change :=
  if k ∈ keyList srcKeys src.rows ∧ k ∉ keyList tgtKeys tgt.rows then
    Change.added
  else if k ∉ keyList srcKeys src.rows ∧ k ∈ keyList tgtKeys tgt.rows then
    Change.removed
  else if diffCols src tgt srcKeys tgtKeys compareCols k ≠ [] then
    Change.modified
  else Change.same

/-- Line 127: `all_keys = src_idxed.index.union(tgt_idxed.index)`.
pandas sorts the union; the counts the claims are about are order-blind,
so the embedding keeps source order followed by the new target keys. -/
def allKeys (src tgt : Table) (srcKeys tgtKeys : List String) :
    List (List Scalar) :=
  keyList srcKeys src.rows ++
    (keyList tgtKeys tgt.rows).filter (· ∉ keyList srcKeys src.rows)

/-- The added/removed/modified/same counters of the `stats` dict
(accumulated per key of `all_keys`), plus the row totals of line 130. -/
structure DiffStats where
  added : Nat
  removed : Nat
  modified : Nat
  same : Nat
  totalSrc : Nat
  totalTgt : Nat
deriving DecidableEq, Repr

def computeDiffStats (src tgt : Table)
    (srcKeys tgtKeys compareCols : List String) : DiffStats :=
  let cls := fun k => classifyKey src tgt srcKeys tgtKeys compareCols k
  let keys := allKeys src tgt srcKeys tgtKeys
  { added := keys.countP fun k => cls k == Change.added
    removed := keys.countP fun k => cls k == Change.removed
    modified := keys.countP fun k => cls k == Change.modified
    same := keys.countP fun k => cls k == Change.same
    totalSrc := src.rows.length
    totalTgt := tgt.rows.length }

/-! ## Stock flips (`compute_diff_multi` lines 175-192, `is_in_stock`) -/

/-- A numeric reading of a cell (`pd.to_numeric(..., errors="coerce")`):
integers pass through, an integer-literal string parses, anything else is
NaN.  (Fractional strings also parse in pandas; the flip claims do not
depend on that case and the tables the claims evaluate carry integer
cells.) -/
def toNumeric : Scalar → Option Int
  | .null => none
  | .int i => some i
  | .str s =>
      let (neg, ds) := parseSign (trimChars s.toList)
      if ds ≠ [] ∧ allDigits ds then
        some (if neg then -(digitsVal ds : Int) else (digitsVal ds : Int))
      else none

/-- `is_in_stock` (lines 90-92): coerce to numeric, read NaN as 0, test
`> 0`. -/
def isInStock (v : Scalar) : Bool :=
  match toNumeric v with
  | some q => 0 < q
  | none => false

/-- Line 178: the key intersection the flip counters range over. -/
def commonKeys (src tgt : Table) (srcKeys tgtKeys : List String) :
    List (List Scalar) :=
  (keyList srcKeys src.rows).filter (· ∈ keyList tgtKeys tgt.rows)

/-- Lines 175-192 for one compare column: over the key intersection, count
keys in stock in the source but not the target, and the reverse.  An empty
intersection short-circuits to `(0, 0)`. -/
def flipCounts (src tgt : Table) (srcKeys tgtKeys : List String)
    (c : String) : Nat × Nat :=
  let common := commonKeys src tgt srcKeys tgtKeys
  if common.isEmpty then (0, 0)
  else
    let pairs := common.map fun k =>
      (isInStock (((findByKey srcKeys (dedupByKey srcKeys src.rows) k).getD
          defaultRow) c),
       isInStock (((findByKey tgtKeys (dedupByKey tgtKeys tgt.rows) k).getD
          defaultRow) c))
    ((pairs.filter fun p => p.1 && !p.2).length,
     (pairs.filter fun p => !p.1 && p.2).length)

/-! ## Sync (`compare_stock.py`, `apply_sync_multi`)

Lines 195-246.  Both frames are keyed and deduplicated as in the diff; the
sync columns are intersected with both column sets (line 223).  Matched
target rows get the effective sync columns overwritten from the source
row; source-only keys are appended as rows whose other target columns are
pd.NA; finally `reset_index` plus `out[tgt_col] = out["__Ki__"]` writes
each row's key values back into the target key columns (lines 239-243),
which on a matched or target-only row rewrites the values the row already
carries.  The persisted side (`to_sql`) is external I/O and out of the
embedding; the function's value is the written table and the returned
count `len(common) + len(added)`.
-/

def setCell (r : Row) (c : String) (v : Scalar) : Row :=
  fun x => if x = c then v else r x

/-- One row of `t.loc[common, sync_cols_final] = s.loc[common,
sync_cols_final].values`: overwrite the listed columns with the source
row's values.  (The source guards the assignment behind `len(common) > 0
and sync_cols_final`; overwriting an empty column list is the identity, so
the unguarded form is the same function.) -/
def setCols (r : Row) (cols : List String) (vrow : Row) : Row :=
  cols.foldl (fun acc c => setCell acc c (vrow c)) r

/-- Lines 241-243: write the row's key values into the target key columns
(`out[tgt_col] = out["__Ki__"]`, one assignment per key column, later
assignments winning). -/
def restoreKeys (tgtKeys : List String) (k : List Scalar) (r : Row) : Row :=
  (tgtKeys.zip k).foldl (fun acc p => setCell acc p.1 p.2) r

/-- Line 223: `[c for c in sync_cols if c in s.columns and c in t.columns]`. -/
def effectiveSyncCols (src tgt : Table) (syncCols : List String) :
    List String :=
  syncCols.filter fun c => c ∈ src.cols ∧ c ∈ tgt.cols

/-- Lines 232-236: the row appended for a source-only key, before the key
columns are restored: effective sync columns from the source row, every
other column pd.NA. -/
def baseAddedRow (syncColsFinal : List String) (rs : Row) : Row :=
  fun c => if c ∈ syncColsFinal then rs c else Scalar.null

/-- One target row through the matched-key update and the key-column
restoration: if its key has a source row, the effective sync columns are
overwritten from it; either way the key columns are then rewritten with
the row's key values (lines 228-229 and 241-243). -/
def updateRow (sD : List Row) (srcKeys tgtKeys cols : List String) (r : Row) :
    Row :=
  match findByKey srcKeys sD (keyOf tgtKeys r) with
  | some rs => restoreKeys tgtKeys (keyOf tgtKeys r) (setCols r cols rs)
  | none => restoreKeys tgtKeys (keyOf tgtKeys r) r

/-- The row appended for a source-only source row, key columns restored
from its source key (lines 231-237 and 241-243). -/
def addedRowFor (srcKeys tgtKeys cols : List String) (rs : Row) : Row :=
  restoreKeys tgtKeys (keyOf srcKeys rs) (baseAddedRow cols rs)

/-- Embeds `apply_sync_multi`: the resulting target table and the returned
touched-row count.  (pandas sorts `s.index.difference(t.index)`; the
appended rows here keep source order, which affects only row order, never
a row's cells or the count.) -/
def applySyncMulti (src tgt : Table) (srcKeys tgtKeys syncCols : List String) :
    Table × Nat :=
  let sD := dedupByKey srcKeys src.rows
  let tD := dedupByKey tgtKeys tgt.rows
  let cols := effectiveSyncCols src tgt syncCols
  let sKeys := sD.map (keyOf srcKeys)
  let tKeys := tD.map (keyOf tgtKeys)
  let common := tKeys.filter fun k => k ∈ sKeys
  let addedKeys := sKeys.filter fun k => k ∉ tKeys
  let updated := tD.map (updateRow sD srcKeys tgtKeys cols)
  let addedRows := (sD.filter fun rs => keyOf srcKeys rs ∉ tKeys).map
    (addedRowFor srcKeys tgtKeys cols)
  (⟨tgt.cols, updated ++ addedRows⟩, common.length + addedKeys.length)

/-- The last assignment to a column among a list of (column, value)
assignments, mirroring that later pandas column assignments win. -/
def assignLast (ps : List (String × Scalar)) (x : String) : Option Scalar :=
  ps.foldl (fun acc p => if p.1 = x then some p.2 else acc) none

/-- `t.index.intersection(s.index)` of the sync (line 225). -/
def syncCommonKeys (src tgt : Table) (srcKeys tgtKeys : List String) :
    List (List Scalar) :=
  (keyList tgtKeys tgt.rows).filter fun k => k ∈ keyList srcKeys src.rows

/-- `s.index.difference(t.index)` of the sync (line 226). -/
def syncAddedKeys (src tgt : Table) (srcKeys tgtKeys : List String) :
    List (List Scalar) :=
  (keyList srcKeys src.rows).filter fun k => k ∉ keyList tgtKeys tgt.rows

/-! ## Concrete tables used by witnesses and counterexamples -/

/-- The rows behind the C3 witness: key A has quantity 0 in the source and
no quantity (null) in the target, which must count as a difference. -/
def nullVsZeroSrc : Table :=
  ⟨["SKU", "Qty"], [Row.ofList [("SKU", Scalar.str "A"), ("Qty", Scalar.int 0)]]⟩

def nullVsZeroTgt : Table :=
  ⟨["SKU", "Qty"], [Row.ofList [("SKU", Scalar.str "A")]]⟩

def permRowA : Row := Row.ofList [("SKU", Scalar.str "A")]

def permRowB : Row := Row.ofList [("SKU", Scalar.str "B")]

def permRowC : Row := Row.ofList [("SKU", Scalar.str "C")]

/-- The duplicated raw rows of the claim's example: two rows for key A
carrying quantities 5 and 7. -/
def dupPair : List (GroupKey × Option Int) :=
  [(("A", ""), some 5), (("A", ""), some 7)]

def syncSrcEx : Table :=
  ⟨["SKU", "Qty"], [Row.ofList [("SKU", Scalar.str "A"), ("Qty", Scalar.int 5)]]⟩

def syncTgtEx : Table :=
  ⟨["SKU", "Qty", "Price"],
   [Row.ofList [("SKU", Scalar.str "A"), ("Qty", Scalar.int 3),
      ("Price", Scalar.int 9)],
    Row.ofList [("SKU", Scalar.str "B"), ("Qty", Scalar.int 7),
      ("Price", Scalar.int 2)]]⟩

def emptySyncSrcEx : Table :=
  ⟨["SKU", "Qty"],
   [Row.ofList [("SKU", Scalar.str "A"), ("Qty", Scalar.int 5)],
    Row.ofList [("SKU", Scalar.str "B"), ("Qty", Scalar.int 6)]]⟩

def emptySyncTgtEx : Table :=
  ⟨["SKU", "Price"], [Row.ofList [("SKU", Scalar.str "A"),
    ("Price", Scalar.int 4)]]⟩

/-! ### Facts about deduplication -/

theorem dedupByKeyAux_key_mem (keyCols : List String) (k : List Scalar) :
    ∀ (rows : List Row) (seen : List (List Scalar)),
      k ∈ (dedupByKeyAux keyCols seen rows).map (keyOf keyCols) ↔
        k ∉ seen ∧ k ∈ rows.map (keyOf keyCols)
  | [], seen => by simp [dedupByKeyAux]
  | r :: rs, seen => by
      by_cases h : keyOf keyCols r ∈ seen
      · rw [dedupByKeyAux, if_pos h]
        rw [dedupByKeyAux_key_mem keyCols k rs seen]
        simp only [List.map_cons, List.mem_cons]
        constructor
        · rintro ⟨hk, hm⟩; exact ⟨hk, Or.inr hm⟩
        · rintro ⟨hk, hm | hm⟩
          · exact absurd (hm ▸ h) hk
          · exact ⟨hk, hm⟩
      · rw [dedupByKeyAux, if_neg h]
        simp only [List.map_cons, List.mem_cons]
        rw [dedupByKeyAux_key_mem keyCols k rs (keyOf keyCols r :: seen)]
        by_cases hk : k = keyOf keyCols r
        · subst hk; simp [h]
        · simp [hk]

theorem keyList_mem (keyCols : List String) (rows : List Row)
    (k : List Scalar) :
    k ∈ keyList keyCols rows ↔ k ∈ rows.map (keyOf keyCols) := by
  rw [keyList, dedupByKey, dedupByKeyAux_key_mem]
  simp

theorem dedupByKeyAux_nodup (keyCols : List String) :
    ∀ (rows : List Row) (seen : List (List Scalar)),
      ((dedupByKeyAux keyCols seen rows).map (keyOf keyCols)).Nodup
  | [], seen => by simp [dedupByKeyAux]
  | r :: rs, seen => by
      by_cases h : keyOf keyCols r ∈ seen
      · rw [dedupByKeyAux, if_pos h]
        exact dedupByKeyAux_nodup keyCols rs seen
      · rw [dedupByKeyAux, if_neg h]
        simp only [List.map_cons, List.nodup_cons]
        refine ⟨fun hmem => ?_, dedupByKeyAux_nodup keyCols rs _⟩
        rw [dedupByKeyAux_key_mem] at hmem
        exact hmem.1 (List.mem_cons_self _ _)

theorem keyList_nodup (keyCols : List String) (rows : List Row) :
    (keyList keyCols rows).Nodup :=
  dedupByKeyAux_nodup keyCols rows []

theorem dedupByKeyAux_find (keyCols : List String) (k : List Scalar) :
    ∀ (rows : List Row) (seen : List (List Scalar)), k ∉ seen →
      findByKey keyCols (dedupByKeyAux keyCols seen rows) k =
        findByKey keyCols rows k
  | [], seen, _ => rfl
  | r :: rs, seen, hk => by
      by_cases h : keyOf keyCols r ∈ seen
      · rw [dedupByKeyAux, if_pos h]
        have hne : ¬ (keyOf keyCols r == k) = true := by
          simp only [beq_iff_eq]
          intro he; exact hk (he ▸ h)
        rw [dedupByKeyAux_find keyCols k rs seen hk]
        simp only [findByKey]
        rw [List.find?_cons_of_neg (p := fun r => keyOf keyCols r == k) _ hne]
      · rw [dedupByKeyAux, if_neg h]
        by_cases he : keyOf keyCols r = k
        · simp only [findByKey]
          rw [List.find?_cons_of_pos (p := fun r => keyOf keyCols r == k)
              _ (by simp [he]),
            List.find?_cons_of_pos (p := fun r => keyOf keyCols r == k)
              _ (by simp [he])]
        · have hne : ¬ (keyOf keyCols r == k) = true := by simp [he]
          simp only [findByKey]
          rw [List.find?_cons_of_neg (p := fun r => keyOf keyCols r == k) _ hne,
            List.find?_cons_of_neg (p := fun r => keyOf keyCols r == k) _ hne]
          exact dedupByKeyAux_find keyCols k rs _ (by
            intro hmem
            rcases List.mem_cons.mp hmem with h1 | h1
            · exact he h1.symm
            · exact hk h1)

/-- Looking a key up in the deduplicated table finds the first raw row
bearing that key. -/
theorem findByKey_dedup (keyCols : List String) (rows : List Row)
    (k : List Scalar) :
    findByKey keyCols (dedupByKey keyCols rows) k = findByKey keyCols rows k :=
  dedupByKeyAux_find keyCols k rows [] (by simp)

theorem dedupByKeyAux_eq_self (keyCols : List String) :
    ∀ (rows : List Row) (seen : List (List Scalar)),
      (rows.map (keyOf keyCols)).Nodup →
      (∀ k ∈ rows.map (keyOf keyCols), k ∉ seen) →
      dedupByKeyAux keyCols seen rows = rows
  | [], _, _, _ => rfl
  | r :: rs, seen, hnd, hout => by
      have hnd2 : keyOf keyCols r ∉ rs.map (keyOf keyCols) ∧
          (rs.map (keyOf keyCols)).Nodup := by
        rw [List.map_cons, List.nodup_cons] at hnd; exact hnd
      have hkr : keyOf keyCols r ∉ seen :=
        hout _ (by simp)
      rw [dedupByKeyAux, if_neg hkr]
      congr 1
      apply dedupByKeyAux_eq_self keyCols rs _ hnd2.2
      intro k hk
      simp only [List.mem_cons]
      push_neg
      exact ⟨fun he => absurd (he ▸ hk) hnd2.1, hout _ (by simp [hk])⟩

/-- On rows whose keys are already distinct, deduplication is the
identity. -/
theorem dedupByKey_eq_self (keyCols : List String) (rows : List Row)
    (hnd : (rows.map (keyOf keyCols)).Nodup) :
    dedupByKey keyCols rows = rows :=
  dedupByKeyAux_eq_self keyCols rows [] hnd (by simp)

/-! ### Helper lemmas for the diff claims -/

theorem countP_change_partition (l : List (List Scalar))
    (f : List Scalar → Change) :
    (l.countP fun k => f k == Change.added) +
        (l.countP fun k => f k == Change.removed) +
        (l.countP fun k => f k == Change.modified) +
        (l.countP fun k => f k == Change.same) = l.length := by
  induction l with
  | nil => simp
  | cons a t ih =>
      simp only [List.countP_cons, List.length_cons]
      cases h : f a <;> simp [h] <;> omega

theorem filter_disjoint_length_le {α : Type} (l : List α) (p q : α → Bool)
    (h : ∀ x, ¬ (p x = true ∧ q x = true)) :
    (l.filter p).length + (l.filter q).length ≤ l.length := by
  induction l with
  | nil => simp
  | cons a t ih =>
      cases hp : p a with
      | false =>
          cases hq : q a <;> simp [List.filter_cons, hp, hq] <;> omega
      | true =>
          cases hq : q a with
          | false =>
              simp [List.filter_cons, hp, hq]
              omega
          | true => exact absurd ⟨hp, hq⟩ (h a)

theorem valuesDiffer_eq_false_iff (a b : Scalar) :
    valuesDiffer a b = false ↔
      ((a = Scalar.null ∧ b = Scalar.null) ∨
       (a ≠ Scalar.null ∧ b ≠ Scalar.null ∧ a = b)) := by
  cases a <;> cases b <;>
    simp [valuesDiffer, Scalar.isNull, bne_iff_ne]

theorem classifyKey_eq_added_iff (src tgt : Table)
    (srcKeys tgtKeys compareCols : List String) (k : List Scalar) :
    classifyKey src tgt srcKeys tgtKeys compareCols k = Change.added ↔
      (k ∈ src.rows.map (keyOf srcKeys) ∧ k ∉ tgt.rows.map (keyOf tgtKeys)) := by
  simp only [← keyList_mem]
  unfold classifyKey
  by_cases hs : k ∈ keyList srcKeys src.rows <;>
    by_cases ht : k ∈ keyList tgtKeys tgt.rows <;>
      simp [hs, ht] <;> split <;> simp

theorem classifyKey_eq_removed_iff (src tgt : Table)
    (srcKeys tgtKeys compareCols : List String) (k : List Scalar) :
    classifyKey src tgt srcKeys tgtKeys compareCols k = Change.removed ↔
      (k ∉ src.rows.map (keyOf srcKeys) ∧ k ∈ tgt.rows.map (keyOf tgtKeys)) := by
  simp only [← keyList_mem]
  unfold classifyKey
  by_cases hs : k ∈ keyList srcKeys src.rows <;>
    by_cases ht : k ∈ keyList tgtKeys tgt.rows <;>
      simp [hs, ht] <;> split <;> simp

theorem classifyKey_both (src tgt : Table)
    (srcKeys tgtKeys compareCols : List String) (k : List Scalar)
    (hs : k ∈ keyList srcKeys src.rows) (ht : k ∈ keyList tgtKeys tgt.rows) :
    classifyKey src tgt srcKeys tgtKeys compareCols k =
      (if diffCols src tgt srcKeys tgtKeys compareCols k ≠ [] then
        Change.modified else Change.same) := by
  unfold classifyKey
  rw [if_neg (by simp [ht]), if_neg (by simp [hs])]

/-! ### Row-level lemmas for the sync claims -/

theorem setCell_get (r : Row) (c : String) (v : Scalar) (x : String) :
    setCell r c v x = if x = c then v else r x := rfl

theorem setCols_get (cols : List String) (vrow : Row) (r : Row) (x : String) :
    setCols r cols vrow x = if x ∈ cols then vrow x else r x := by
  induction cols generalizing r with
  | nil => simp [setCols]
  | cons c cs ih =>
      show setCols (setCell r c (vrow c)) cs vrow x = _
      rw [ih]
      by_cases hx : x ∈ cs
      · simp [hx]
      · by_cases hc : x = c <;> simp [hx, hc, setCell]

theorem assignLast_foldl (ps : List (String × Scalar)) (x : String)
    (a : Option Scalar) :
    ps.foldl (fun acc p => if p.1 = x then some p.2 else acc) a =
      match assignLast ps x with
      | some v => some v
      | none => a := by
  induction ps generalizing a with
  | nil => simp [assignLast]
  | cons p ps ih =>
      show ps.foldl _ (if p.1 = x then some p.2 else a) = _
      rcases h1 : assignLast ps x with _ | v
      · by_cases h2 : p.1 = x <;>
          simp only [assignLast, List.foldl_cons] <;>
          rw [ih] <;> simp [h1, h2, ih]
      · by_cases h2 : p.1 = x <;>
          simp only [assignLast, List.foldl_cons] <;>
          rw [ih] <;> simp [h1, h2, ih]

theorem restoreKeys_get (tgtKeys : List String) (k : List Scalar) (r : Row)
    (x : String) :
    restoreKeys tgtKeys k r x =
      (assignLast (tgtKeys.zip k) x).getD (r x) := by
  show (tgtKeys.zip k).foldl (fun acc p => setCell acc p.1 p.2) r x = _
  induction tgtKeys.zip k generalizing r with
  | nil => simp [assignLast]
  | cons p ps ih =>
      show ps.foldl _ (setCell r p.1 p.2) x = _
      rw [ih]
      have h2 : assignLast (p :: ps) x =
          match assignLast ps x with
          | some v => some v
          | none => if p.1 = x then some p.2 else none := by
        show ps.foldl _ (if p.1 = x then some p.2 else none) = _
        rw [assignLast_foldl]
      rw [h2]
      rcases h1 : assignLast ps x with _ | v
      · by_cases h3 : p.1 = x
        · subst h3
          simp [setCell]
        · have h4 : ¬ x = p.1 := fun h => h3 h.symm
          simp [setCell, h3, h4]
      · simp [h1]

/-- The key-restoring assignments built from a row's own key pair each
column with that row's own value at it: reading any column through them
gives the row's value back. -/
theorem assignLast_zip_keyOf (ks : List String) (r : Row) (x : String) :
    assignLast (ks.zip (keyOf ks r)) x =
      if x ∈ ks then some (r x) else none := by
  induction ks with
  | nil => simp [assignLast, keyOf]
  | cons c cs ih =>
      have hz : (c :: cs).zip (keyOf (c :: cs) r) =
          (c, r c) :: cs.zip (keyOf cs r) := by
        simp [keyOf]
      rw [hz]
      have h2 : assignLast ((c, r c) :: cs.zip (keyOf cs r)) x =
          match assignLast (cs.zip (keyOf cs r)) x with
          | some v => some v
          | none => if c = x then some (r c) else none := by
        show (cs.zip (keyOf cs r)).foldl _ _ = _
        rw [assignLast_foldl]
      rw [h2, ih]
      by_cases hx : x ∈ cs
      · simp [hx]
      · by_cases hc : x = c
        · subst hc; simp [hx]
        · have h4 : ¬ c = x := fun h => hc h.symm
          simp [hx, hc, h4]

/-- Restoring a row's own key values is the identity on cells. -/
theorem restoreKeys_self_get (ks : List String) (r r2 : Row) (x : String) :
    restoreKeys ks (keyOf ks r) r2 x = if x ∈ ks then r x else r2 x := by
  rw [restoreKeys_get, assignLast_zip_keyOf]
  by_cases hx : x ∈ ks <;> simp [hx]

theorem restoreKeys_self (ks : List String) (r : Row) :
    restoreKeys ks (keyOf ks r) r = r := by
  funext x
  rw [restoreKeys_self_get]
  by_cases hx : x ∈ ks <;> simp [hx]

theorem keyOf_restoreKeys_self (ks : List String) (r r2 : Row) :
    keyOf ks (restoreKeys ks (keyOf ks r) r2) = keyOf ks r := by
  show List.map (restoreKeys ks (keyOf ks r) r2) ks = List.map r ks
  refine List.map_congr_left fun c hc => ?_
  rw [restoreKeys_self_get, if_pos hc]

theorem assignLast_not_mem (ps : List (String × Scalar)) (x : String)
    (h : x ∉ ps.map Prod.fst) : assignLast ps x = none := by
  induction ps with
  | nil => rfl
  | cons p ps ih =>
      have h2 : assignLast (p :: ps) x =
          match assignLast ps x with
          | some v => some v
          | none => if p.1 = x then some p.2 else none := by
        show ps.foldl _ _ = _
        rw [assignLast_foldl]
      rw [h2, ih (fun hm => h (by simp [hm]))]
      simp only [List.map_cons, List.mem_cons] at h
      push_neg at h
      show (if p.1 = x then some p.2 else none) = none
      exact if_neg (fun he => h.1 he.symm)

/-- With distinct key columns of matching arity, restoring key values
makes the row carry exactly those values at the key columns. -/
theorem keyOf_restoreKeys (ks : List String) (k : List Scalar) (r : Row)
    (hnd : ks.Nodup) (hlen : k.length = ks.length) :
    keyOf ks (restoreKeys ks k r) = k := by
  induction ks generalizing k r with
  | nil => rw [List.length_nil, List.length_eq_zero] at hlen; subst hlen; rfl
  | cons c cs ih =>
      rcases k with _ | ⟨v, vs⟩
      · simp at hlen
      · have hnd2 := List.nodup_cons.mp hnd
        have hz : (c :: cs).zip (v :: vs) = (c, v) :: cs.zip vs := rfl
        have hrw : restoreKeys (c :: cs) (v :: vs) r =
            restoreKeys cs vs (setCell r c v) := rfl
        rw [hrw]
        show (restoreKeys cs vs (setCell r c v)) c ::
            keyOf cs (restoreKeys cs vs (setCell r c v)) = v :: vs
        congr 1
        · rw [restoreKeys_get]
          have : assignLast (cs.zip vs) c = none := by
            apply assignLast_not_mem
            intro hm
            exact hnd2.1 (by
              have := List.map_fst_zip cs vs (by
                rw [List.length_cons, List.length_cons] at hlen
                omega)
              rw [this] at hm
              exact hm)
          rw [this]
          simp [setCell]
        · exact ih vs (setCell r c v) hnd2.2 (by
            rw [List.length_cons, List.length_cons] at hlen
            omega)

theorem keyOf_updateRow (sD : List Row) (srcKeys tgtKeys cols : List String)
    (r : Row) :
    keyOf tgtKeys (updateRow sD srcKeys tgtKeys cols r) = keyOf tgtKeys r := by
  unfold updateRow
  cases h : findByKey srcKeys sD (keyOf tgtKeys r) <;>
    exact keyOf_restoreKeys_self _ _ _

theorem updateRow_of_none (sD : List Row) (srcKeys tgtKeys cols : List String)
    (r : Row) (h : findByKey srcKeys sD (keyOf tgtKeys r) = none) :
    updateRow sD srcKeys tgtKeys cols r = r := by
  unfold updateRow
  rw [h]
  exact restoreKeys_self _ _

theorem updateRow_of_some (sD : List Row) (srcKeys tgtKeys cols : List String)
    (r rs : Row) (h : findByKey srcKeys sD (keyOf tgtKeys r) = some rs)
    (x : String) :
    updateRow sD srcKeys tgtKeys cols r x =
      if x ∈ tgtKeys then r x else if x ∈ cols then rs x else r x := by
  unfold updateRow
  rw [h]
  show restoreKeys tgtKeys (keyOf tgtKeys r) (setCols r cols rs) x = _
  rw [restoreKeys_self_get]
  by_cases hx : x ∈ tgtKeys
  · simp [hx]
  · simp [hx, setCols_get]

theorem updateRow_nil_cols (sD : List Row) (srcKeys tgtKeys : List String)
    (r : Row) : updateRow sD srcKeys tgtKeys [] r = r := by
  unfold updateRow
  cases h : findByKey srcKeys sD (keyOf tgtKeys r)
  · exact restoreKeys_self _ _
  · exact restoreKeys_self _ _

theorem keyOf_addedRowFor (srcKeys tgtKeys cols : List String) (rs : Row)
    (hnd : tgtKeys.Nodup) (hlen : srcKeys.length = tgtKeys.length) :
    keyOf tgtKeys (addedRowFor srcKeys tgtKeys cols rs) = keyOf srcKeys rs := by
  unfold addedRowFor
  exact keyOf_restoreKeys tgtKeys _ _ hnd (by simp [keyOf, hlen])

theorem addedRowFor_not_key (srcKeys tgtKeys cols : List String) (rs : Row)
    (x : String) (hx : x ∉ tgtKeys) :
    addedRowFor srcKeys tgtKeys cols rs x =
      if x ∈ cols then rs x else Scalar.null := by
  unfold addedRowFor
  rw [restoreKeys_get]
  have hnm : x ∉ (tgtKeys.zip (keyOf srcKeys rs)).map Prod.fst := by
    intro hm
    rcases List.mem_map.mp hm with ⟨p, hp, hpe⟩
    obtain ⟨a, b⟩ := p
    exact hx (hpe ▸ (List.of_mem_zip hp).1)
  rw [assignLast_not_mem _ _ hnm]
  rfl

theorem find?_filter_of_imp {α : Type} (l : List α) (p q : α → Bool)
    (h : ∀ x ∈ l, p x = true → q x = true) :
    (l.filter q).find? p = l.find? p := by
  induction l with
  | nil => rfl
  | cons a t ih =>
      by_cases hq : q a = true
      · rw [List.filter_cons_of_pos hq]
        by_cases hp : p a = true
        · rw [List.find?_cons_of_pos _ hp, List.find?_cons_of_pos _ hp]
        · rw [List.find?_cons_of_neg _ hp, List.find?_cons_of_neg _ hp]
          exact ih fun x hx => h x (by simp [hx])
      · rw [List.filter_cons_of_neg hq]
        have hp : ¬ p a = true := fun hp => hq (h a (by simp) hp)
        rw [List.find?_cons_of_neg _ hp]
        exact ih fun x hx => h x (by simp [hx])

theorem findByKey_isSome_of_mem (keyCols : List String) (rows : List Row)
    (k : List Scalar) (hk : k ∈ rows.map (keyOf keyCols)) :
    (findByKey keyCols rows k).isSome := by
  rw [findByKey, List.find?_isSome]
  rcases List.mem_map.mp hk with ⟨r, hr, hre⟩
  exact ⟨r, hr, by simp [hre]⟩

theorem findByKey_keyOf (keyCols : List String) (rows : List Row)
    (k : List Scalar) (r : Row) (h : findByKey keyCols rows k = some r) :
    keyOf keyCols r = k := by
  have := List.find?_some h
  simpa using this

theorem findByKey_eq_none_of_not_mem (keyCols : List String) (rows : List Row)
    (k : List Scalar) (hk : k ∉ rows.map (keyOf keyCols)) :
    findByKey keyCols rows k = none := by
  rw [findByKey, List.find?_eq_none]
  intro r hr
  simp only [beq_iff_eq]
  intro he
  exact hk (List.mem_map.mpr ⟨r, hr, he⟩)

/-- Looking up a target key in the sync result finds the updated version
of the target's row for that key. -/
theorem findByKey_sync_target (src tgt : Table)
    (srcKeys tgtKeys syncCols : List String) (k : List Scalar)
    (hk : k ∈ keyList tgtKeys tgt.rows) :
    findByKey tgtKeys (applySyncMulti src tgt srcKeys tgtKeys syncCols).1.rows
        k =
      (findByKey tgtKeys (dedupByKey tgtKeys tgt.rows) k).map
        (updateRow (dedupByKey srcKeys src.rows) srcKeys tgtKeys
          (effectiveSyncCols src tgt syncCols)) := by
  show findByKey tgtKeys
      ((dedupByKey tgtKeys tgt.rows).map (updateRow _ srcKeys tgtKeys _) ++ _)
      k = _
  rw [findByKey, List.find?_append, List.find?_map]
  have hcomp : ((fun r => keyOf tgtKeys r == k) ∘
      updateRow (dedupByKey srcKeys src.rows) srcKeys tgtKeys
        (effectiveSyncCols src tgt syncCols)) =
      fun r => keyOf tgtKeys r == k := by
    funext r
    simp [Function.comp, keyOf_updateRow]
  rw [hcomp]
  have hsome : ((dedupByKey tgtKeys tgt.rows).find?
      fun r => keyOf tgtKeys r == k).isSome :=
    findByKey_isSome_of_mem tgtKeys _ k hk
  rcases hfind : (dedupByKey tgtKeys tgt.rows).find?
      (fun r => keyOf tgtKeys r == k) with _ | r0
  · rw [hfind] at hsome
    simp at hsome
  · have hfind2 : findByKey tgtKeys (dedupByKey tgtKeys tgt.rows) k = some r0 :=
      hfind
    rw [hfind2]
    rfl

/-- Looking up a source-only key in the sync result finds the appended row
built from the source's row for that key. -/
theorem findByKey_sync_added (src tgt : Table)
    (srcKeys tgtKeys syncCols : List String) (k : List Scalar)
    (hnd : tgtKeys.Nodup) (hlen : srcKeys.length = tgtKeys.length)
    (hks : k ∈ keyList srcKeys src.rows)
    (hkt : k ∉ keyList tgtKeys tgt.rows) :
    findByKey tgtKeys (applySyncMulti src tgt srcKeys tgtKeys syncCols).1.rows
        k =
      (findByKey srcKeys (dedupByKey srcKeys src.rows) k).map
        (addedRowFor srcKeys tgtKeys (effectiveSyncCols src tgt syncCols)) := by
  show findByKey tgtKeys
      ((dedupByKey tgtKeys tgt.rows).map (updateRow _ srcKeys tgtKeys _) ++
        ((dedupByKey srcKeys src.rows).filter fun rs =>
          keyOf srcKeys rs ∉ (dedupByKey tgtKeys tgt.rows).map
            (keyOf tgtKeys)).map
          (addedRowFor srcKeys tgtKeys (effectiveSyncCols src tgt syncCols)))
      k = _
  rw [findByKey, List.find?_append, List.find?_map, List.find?_map]
  have hcompu : ((fun r => keyOf tgtKeys r == k) ∘
      updateRow (dedupByKey srcKeys src.rows) srcKeys tgtKeys
        (effectiveSyncCols src tgt syncCols)) =
      fun r => keyOf tgtKeys r == k := by
    funext r
    simp [Function.comp, keyOf_updateRow]
  have hcompa : ((fun r => keyOf tgtKeys r == k) ∘
      addedRowFor srcKeys tgtKeys (effectiveSyncCols src tgt syncCols)) =
      fun rs => keyOf srcKeys rs == k := by
    funext rs
    simp [Function.comp, keyOf_addedRowFor srcKeys tgtKeys _ rs hnd hlen]
  rw [hcompu, hcompa]
  have hnone : (dedupByKey tgtKeys tgt.rows).find?
      (fun r => keyOf tgtKeys r == k) = none := by
    rw [List.find?_eq_none]
    intro r hr
    simp only [beq_iff_eq]
    intro he
    exact hkt (List.mem_map.mpr ⟨r, hr, he⟩)
  rw [hnone]
  have hfilter : (((dedupByKey srcKeys src.rows).filter fun rs =>
      keyOf srcKeys rs ∉ (dedupByKey tgtKeys tgt.rows).map
        (keyOf tgtKeys)).find? fun rs => keyOf srcKeys rs == k) =
      ((dedupByKey srcKeys src.rows).find? fun rs => keyOf srcKeys rs == k) := by
    apply find?_filter_of_imp
    intro rs _ hp
    have hkeq : keyOf srcKeys rs = k := by simpa using hp
    have hkt2 : k ∉ (dedupByKey tgtKeys tgt.rows).map (keyOf tgtKeys) := hkt
    simpa [hkeq] using hkt2
  rw [hfilter]
  rfl

theorem applySyncMulti_snd (src tgt : Table)
    (srcKeys tgtKeys syncCols : List String) :
    (applySyncMulti src tgt srcKeys tgtKeys syncCols).2 =
      (syncCommonKeys src tgt srcKeys tgtKeys).length +
        (syncAddedKeys src tgt srcKeys tgtKeys).length := rfl

/-- The keys of the sync result: the target's keys (updated rows keep
their key) followed by the source-only keys. -/
theorem sync_result_keys (src tgt : Table)
    (srcKeys tgtKeys syncCols : List String)
    (hlen : srcKeys.length = tgtKeys.length) (hnd : tgtKeys.Nodup) :
    (applySyncMulti src tgt srcKeys tgtKeys syncCols).1.rows.map
        (keyOf tgtKeys) =
      keyList tgtKeys tgt.rows ++ syncAddedKeys src tgt srcKeys tgtKeys := by
  show ((dedupByKey tgtKeys tgt.rows).map
      (updateRow (dedupByKey srcKeys src.rows) srcKeys tgtKeys
        (effectiveSyncCols src tgt syncCols)) ++
      ((dedupByKey srcKeys src.rows).filter fun rs =>
        keyOf srcKeys rs ∉ (dedupByKey tgtKeys tgt.rows).map
          (keyOf tgtKeys)).map
        (addedRowFor srcKeys tgtKeys
          (effectiveSyncCols src tgt syncCols))).map (keyOf tgtKeys) = _
  rw [List.map_append, List.map_map, List.map_map]
  congr 1
  · exact List.map_congr_left fun r _ => keyOf_updateRow _ _ _ _ r
  · refine Eq.trans (List.map_congr_left fun rs _ => ?_)
      ((List.filter_map
        (p := fun k => decide (k ∉ List.map (keyOf tgtKeys)
          (dedupByKey tgtKeys tgt.rows)))
        (keyOf srcKeys) (dedupByKey srcKeys src.rows)).symm)
    exact keyOf_addedRowFor srcKeys tgtKeys
      (effectiveSyncCols src tgt syncCols) rs hnd hlen

theorem sync_result_keys_nodup (src tgt : Table)
    (srcKeys tgtKeys syncCols : List String)
    (hlen : srcKeys.length = tgtKeys.length) (hnd : tgtKeys.Nodup) :
    ((applySyncMulti src tgt srcKeys tgtKeys syncCols).1.rows.map
      (keyOf tgtKeys)).Nodup := by
  rw [sync_result_keys src tgt srcKeys tgtKeys syncCols hlen hnd]
  apply List.Nodup.append (keyList_nodup _ _)
    ((keyList_nodup srcKeys src.rows).filter _)
  intro a ha hb
  rcases List.mem_filter.mp hb with ⟨_, hnot⟩
  have hns : a ∉ keyList tgtKeys tgt.rows := by simpa using hnot
  exact hns ha

/-- Updating an already-updated row changes nothing. -/
theorem updateRow_idem (sD : List Row) (srcKeys tgtKeys cols : List String)
    (r : Row) :
    updateRow sD srcKeys tgtKeys cols (updateRow sD srcKeys tgtKeys cols r) =
      updateRow sD srcKeys tgtKeys cols r := by
  rcases hfind : findByKey srcKeys sD (keyOf tgtKeys r) with _ | rs
  · rw [updateRow_of_none _ _ _ _ _ hfind,
      updateRow_of_none _ _ _ _ _ hfind]
  · have hfind2 : findByKey srcKeys sD
        (keyOf tgtKeys (updateRow sD srcKeys tgtKeys cols r)) = some rs := by
      rw [keyOf_updateRow]
      exact hfind
    funext x
    rw [updateRow_of_some _ _ _ _ _ _ hfind2 x]
    by_cases hx : x ∈ tgtKeys
    · simp [hx]
    · by_cases hc : x ∈ cols
      · simp [hx, hc, updateRow_of_some _ _ _ _ _ _ hfind x]
      · simp [hx, hc]

/-- A freshly appended source-only row passes through a further update
unchanged: its key finds exactly the source row it was built from, which
rewrites the same values. -/
theorem updateRow_addedRowFor (sD : List Row)
    (srcKeys tgtKeys cols : List String) (rs : Row)
    (hnd : tgtKeys.Nodup) (hlen : srcKeys.length = tgtKeys.length)
    (hnds : (sD.map (keyOf srcKeys)).Nodup) (hrs : rs ∈ sD) :
    updateRow sD srcKeys tgtKeys cols (addedRowFor srcKeys tgtKeys cols rs) =
      addedRowFor srcKeys tgtKeys cols rs := by
  have hsome : (findByKey srcKeys sD (keyOf srcKeys rs)).isSome :=
    findByKey_isSome_of_mem _ _ _ (List.mem_map.mpr ⟨rs, hrs, rfl⟩)
  obtain ⟨rs0, hrs0⟩ := Option.isSome_iff_exists.mp hsome
  have heq : rs0 = rs :=
    List.inj_on_of_nodup_map hnds (List.mem_of_find?_eq_some hrs0) hrs
      (findByKey_keyOf _ _ _ _ hrs0)
  rw [heq] at hrs0
  have hfind2 : findByKey srcKeys sD
      (keyOf tgtKeys (addedRowFor srcKeys tgtKeys cols rs)) = some rs := by
    rw [keyOf_addedRowFor srcKeys tgtKeys cols rs hnd hlen]
    exact hrs0
  funext x
  rw [updateRow_of_some _ _ _ _ _ _ hfind2 x]
  by_cases hx : x ∈ tgtKeys
  · simp [hx]
  · by_cases hc : x ∈ cols
    · simp [hx, hc, addedRowFor_not_key _ _ _ _ _ hx]
    · simp [hx, hc]

/-! ### Claim theorems over the diff engine -/

/-- C1: partition completeness of diff classification.  For every pair of
input tables and every compare-column list, the union of the two key
indexes is duplicate-free, a key belongs to it exactly when it is a key of
either input, and the four counters of the stats dict sum to its size:
each key is counted in exactly one of added / removed / modified /
same. -/
theorem diff_partition_completeness (src tgt : Table)
    (srcKeys tgtKeys compareCols : List String) :
    (computeDiffStats src tgt srcKeys tgtKeys compareCols).added +
        (computeDiffStats src tgt srcKeys tgtKeys compareCols).removed +
        (computeDiffStats src tgt srcKeys tgtKeys compareCols).modified +
        (computeDiffStats src tgt srcKeys tgtKeys compareCols).same
      = (allKeys src tgt srcKeys tgtKeys).length
    ∧ (allKeys src tgt srcKeys tgtKeys).Nodup
    ∧ (∀ k, k ∈ allKeys src tgt srcKeys tgtKeys ↔
        (k ∈ src.rows.map (keyOf srcKeys) ∨
         k ∈ tgt.rows.map (keyOf tgtKeys))) := by
  refine ⟨?_, ?_, ?_⟩
  · simp only [computeDiffStats]
    exact countP_change_partition _ _
  · apply List.Nodup.append (keyList_nodup _ _)
      ((keyList_nodup tgtKeys tgt.rows).filter _)
    intro a ha hb
    rcases List.mem_filter.mp hb with ⟨_, hnot⟩
    have hns : a ∉ keyList srcKeys src.rows := by simpa using hnot
    exact hns ha
  · intro k
    simp only [allKeys, List.mem_append, List.mem_filter, keyList_mem,
      decide_eq_true_eq]
    by_cases hks : k ∈ src.rows.map (keyOf srcKeys) <;> simp [hks, keyList_mem]

/-- C3: value-equality rule for modification.  For a key present in both
tables, the row is classified modified exactly when some effective compare
column differs, same exactly when none does, under the rule: two cells are
equal when both are null, or when neither is null and they are equal by
value (so a null against a non-null — 0 included — differs). -/
theorem modified_value_equality (src tgt : Table)
    (srcKeys tgtKeys compareCols : List String) (k : List Scalar)
    (hs : k ∈ src.rows.map (keyOf srcKeys))
    (ht : k ∈ tgt.rows.map (keyOf tgtKeys)) :
    (classifyKey src tgt srcKeys tgtKeys compareCols k = Change.modified ↔
      ∃ c ∈ effectiveCompareCols src tgt compareCols,
        valuesDiffer (((findByKey srcKeys src.rows k).getD defaultRow) c)
          (((findByKey tgtKeys tgt.rows k).getD defaultRow) c) = true)
    ∧ (classifyKey src tgt srcKeys tgtKeys compareCols k = Change.same ↔
      ∀ c ∈ effectiveCompareCols src tgt compareCols,
        valuesDiffer (((findByKey srcKeys src.rows k).getD defaultRow) c)
          (((findByKey tgtKeys tgt.rows k).getD defaultRow) c) = false)
    ∧ (∀ a b : Scalar, valuesDiffer a b = false ↔
        ((a = Scalar.null ∧ b = Scalar.null) ∨
         (a ≠ Scalar.null ∧ b ≠ Scalar.null ∧ a = b))) := by
  have hs2 : k ∈ keyList srcKeys src.rows := (keyList_mem _ _ _).mpr hs
  have ht2 : k ∈ keyList tgtKeys tgt.rows := (keyList_mem _ _ _).mpr ht
  have hcls := classifyKey_both src tgt srcKeys tgtKeys compareCols k hs2 ht2
  have hdc : diffCols src tgt srcKeys tgtKeys compareCols k =
      (effectiveCompareCols src tgt compareCols).filter fun c =>
        valuesDiffer (((findByKey srcKeys src.rows k).getD defaultRow) c)
          (((findByKey tgtKeys tgt.rows k).getD defaultRow) c) := by
    simp [diffCols, findByKey_dedup]
  have hnil : diffCols src tgt srcKeys tgtKeys compareCols k = [] ↔
      ∀ c ∈ effectiveCompareCols src tgt compareCols,
        valuesDiffer (((findByKey srcKeys src.rows k).getD defaultRow) c)
          (((findByKey tgtKeys tgt.rows k).getD defaultRow) c) = false := by
    rw [hdc, List.filter_eq_nil_iff]
    simp
  refine ⟨?_, ?_, valuesDiffer_eq_false_iff⟩
  · rw [hcls]
    by_cases hd : diffCols src tgt srcKeys tgtKeys compareCols k = []
    · rw [if_neg (not_not_intro hd)]
      rw [hnil] at hd
      constructor
      · intro h; exact absurd h (by decide)
      · rintro ⟨c, hc, hv⟩
        rw [hd c hc] at hv
        exact absurd hv (by decide)
    · rw [if_pos hd]
      rw [hnil] at hd
      push_neg at hd
      rcases hd with ⟨c, hc, hv⟩
      exact iff_of_true rfl ⟨c, hc, by simpa using hv⟩
  · rw [hcls]
    by_cases hd : diffCols src tgt srcKeys tgtKeys compareCols k = []
    · rw [if_neg (not_not_intro hd)]
      rw [hnil] at hd
      exact iff_of_true rfl hd
    · rw [if_pos hd]
      rw [hnil] at hd
      constructor
      · intro h; exact absurd h (by decide)
      · intro h; exact absurd h hd

theorem modified_value_equality_witness :
    [Scalar.str "A"] ∈ nullVsZeroSrc.rows.map (keyOf ["SKU"])
    ∧ [Scalar.str "A"] ∈ nullVsZeroTgt.rows.map (keyOf ["SKU"])
    ∧ classifyKey nullVsZeroSrc nullVsZeroTgt ["SKU"] ["SKU"] ["Qty"]
        [Scalar.str "A"] = Change.modified :=
  ⟨by decide, by decide, by
    have h := modified_value_equality nullVsZeroSrc nullVsZeroTgt ["SKU"]
      ["SKU"] ["Qty"] [Scalar.str "A"] (by decide) (by decide)
    exact h.1.mpr ⟨"Qty", by decide, by decide⟩⟩

/-- C4 (amended): with an empty effective compare-column set the engine
does not fail; it runs, classifies every key present in both tables as
same, and reports zero modified keys.  (The GUI's key/column dialog
refuses to save an empty selection, but `compute_diff_multi` itself has no
"nothing to compare" error path.) -/
theorem empty_compare_all_same (src tgt : Table)
    (srcKeys tgtKeys compareCols : List String) (k : List Scalar)
    (hempty : effectiveCompareCols src tgt compareCols = [])
    (hs : k ∈ src.rows.map (keyOf srcKeys))
    (ht : k ∈ tgt.rows.map (keyOf tgtKeys)) :
    classifyKey src tgt srcKeys tgtKeys compareCols k = Change.same
    ∧ (computeDiffStats src tgt srcKeys tgtKeys compareCols).modified = 0 := by
  have hdc : ∀ k2, diffCols src tgt srcKeys tgtKeys compareCols k2 = [] := by
    intro k2
    simp [diffCols, hempty]
  constructor
  · rw [classifyKey_both src tgt srcKeys tgtKeys compareCols k
      ((keyList_mem _ _ _).mpr hs) ((keyList_mem _ _ _).mpr ht)]
    rw [if_neg (not_not_intro (hdc k))]
  · simp only [computeDiffStats]
    rw [List.countP_eq_zero]
    intro k2 _
    simp only [beq_iff_eq]
    unfold classifyKey
    rw [if_neg (not_not_intro (hdc k2))]
    split_ifs <;> simp

theorem empty_compare_all_same_witness :
    effectiveCompareCols nullVsZeroSrc ⟨["SKU"], nullVsZeroTgt.rows⟩ ["Qty"] = []
    ∧ [Scalar.str "A"] ∈ nullVsZeroSrc.rows.map (keyOf ["SKU"])
    ∧ [Scalar.str "A"] ∈ (Table.mk ["SKU"] nullVsZeroTgt.rows).rows.map (keyOf ["SKU"])
    ∧ classifyKey nullVsZeroSrc ⟨["SKU"], nullVsZeroTgt.rows⟩ ["SKU"] ["SKU"]
        ["Qty"] [Scalar.str "A"] = Change.same :=
  ⟨by decide, by decide, by decide,
   (empty_compare_all_same nullVsZeroSrc ⟨["SKU"], nullVsZeroTgt.rows⟩ ["SKU"]
     ["SKU"] ["Qty"] [Scalar.str "A"] (by decide) (by decide) (by decide)).1⟩

/-- C4 counterexample: on a concrete pair of tables whose effective
compare set is empty (Qty exists only in the source), `compute_diff_multi`
does not fail: it runs to completion and classifies the common key A as
same — the exact behavior the claim says is refused with a "nothing to
compare" error. -/
theorem empty_compare_no_failure_cex :
    effectiveCompareCols nullVsZeroSrc ⟨["SKU"], nullVsZeroTgt.rows⟩ ["Qty"] = []
    ∧ computeDiffStats nullVsZeroSrc ⟨["SKU"], nullVsZeroTgt.rows⟩ ["SKU"]
        ["SKU"] ["Qty"] =
      { added := 0, removed := 0, modified := 0, same := 1,
        totalSrc := 1, totalTgt := 1 } := by
  constructor <;> decide

/-- C7: stock-flip counters range over the key intersection only: their
sum never exceeds the size of the intersection, and an empty intersection
yields the pair (0, 0) rather than an error. -/
theorem flip_counts_over_intersection (src tgt : Table)
    (srcKeys tgtKeys : List String) (c : String) :
    (flipCounts src tgt srcKeys tgtKeys c).1 +
        (flipCounts src tgt srcKeys tgtKeys c).2 ≤
      (commonKeys src tgt srcKeys tgtKeys).length
    ∧ (commonKeys src tgt srcKeys tgtKeys = [] →
        flipCounts src tgt srcKeys tgtKeys c = (0, 0)) := by
  constructor
  · unfold flipCounts
    by_cases hc : (commonKeys src tgt srcKeys tgtKeys).isEmpty
    · rw [if_pos hc]
      simp
    · rw [if_neg hc]
      simp only
      have hlen : ((commonKeys src tgt srcKeys tgtKeys).map fun k =>
          (isInStock (((findByKey srcKeys (dedupByKey srcKeys src.rows) k).getD
              defaultRow) c),
           isInStock (((findByKey tgtKeys (dedupByKey tgtKeys tgt.rows) k).getD
              defaultRow) c))).length =
          (commonKeys src tgt srcKeys tgtKeys).length :=
        List.length_map _ _
      rw [← hlen]
      apply filter_disjoint_length_le
      rintro ⟨a, b⟩ ⟨h1, h2⟩
      cases a <;> cases b <;> simp_all
  · intro h
    unfold flipCounts
    rw [if_pos (by simp [h])]

/-- C9: symmetry of absence.  A key present only in the source is
classified added and one present only in the target removed, and this
classification is invariant under any permutation of the raw rows of
either input. -/
theorem absence_symmetry (src tgt : Table)
    (srcKeys tgtKeys compareCols : List String)
    (srcRows2 tgtRows2 : List Row) (k : List Scalar)
    (hps : src.rows.Perm srcRows2) (hpt : tgt.rows.Perm tgtRows2) :
    (k ∈ src.rows.map (keyOf srcKeys) ∧ k ∉ tgt.rows.map (keyOf tgtKeys) →
      classifyKey src tgt srcKeys tgtKeys compareCols k = Change.added
      ∧ classifyKey ⟨src.cols, srcRows2⟩ ⟨tgt.cols, tgtRows2⟩ srcKeys tgtKeys
          compareCols k = Change.added)
    ∧ (k ∉ src.rows.map (keyOf srcKeys) ∧ k ∈ tgt.rows.map (keyOf tgtKeys) →
      classifyKey src tgt srcKeys tgtKeys compareCols k = Change.removed
      ∧ classifyKey ⟨src.cols, srcRows2⟩ ⟨tgt.cols, tgtRows2⟩ srcKeys tgtKeys
          compareCols k = Change.removed) := by
  have hms : k ∈ src.rows.map (keyOf srcKeys) ↔ k ∈ srcRows2.map (keyOf srcKeys) :=
    (hps.map (keyOf srcKeys)).mem_iff
  have hmt : k ∈ tgt.rows.map (keyOf tgtKeys) ↔ k ∈ tgtRows2.map (keyOf tgtKeys) :=
    (hpt.map (keyOf tgtKeys)).mem_iff
  constructor
  · rintro ⟨h1, h2⟩
    refine ⟨(classifyKey_eq_added_iff _ _ _ _ _ _).mpr ⟨h1, h2⟩,
      (classifyKey_eq_added_iff _ _ _ _ _ _).mpr ⟨?_, ?_⟩⟩
    · exact hms.mp h1
    · intro hmem; exact h2 (hmt.mpr hmem)
  · rintro ⟨h1, h2⟩
    refine ⟨(classifyKey_eq_removed_iff _ _ _ _ _ _).mpr ⟨h1, h2⟩,
      (classifyKey_eq_removed_iff _ _ _ _ _ _).mpr ⟨?_, ?_⟩⟩
    · intro hmem; exact h1 (hms.mpr hmem)
    · exact hmt.mp h2

theorem absence_symmetry_witness :
    classifyKey ⟨["SKU"], [permRowA, permRowB]⟩ ⟨["SKU"], [permRowB, permRowC]⟩
        ["SKU"] ["SKU"] ["Qty"] [Scalar.str "A"] = Change.added
    ∧ classifyKey ⟨["SKU"], [permRowB, permRowA]⟩ ⟨["SKU"], [permRowC, permRowB]⟩
        ["SKU"] ["SKU"] ["Qty"] [Scalar.str "A"] = Change.added :=
  (absence_symmetry ⟨["SKU"], [permRowA, permRowB]⟩
    ⟨["SKU"], [permRowB, permRowC]⟩ ["SKU"] ["SKU"] ["Qty"]
    [permRowB, permRowA] [permRowC, permRowB] [Scalar.str "A"]
    (List.Perm.swap permRowB permRowA [])
    (List.Perm.swap permRowC permRowB [])).1 ⟨by decide, by decide⟩

/-! ### Claim theorem for duplicate aggregation -/

theorem lookup_map_pair (l : List GroupKey) (f : GroupKey → Option Int)
    (k : GroupKey) (h : k ∈ l) :
    (l.map fun a => (a, f a)).lookup k = some (f k) := by
  induction l with
  | nil => cases h
  | cons a t ih =>
      by_cases hk : k = a
      · subst hk
        simp [List.lookup]
      · rcases List.mem_cons.mp h with h1 | h1
        · exact absurd h1 hk
        · have hb : (k == a) = false := by simp [hk]
          simp only [List.map_cons, List.lookup, hb]
          exact ih h1

/-- C5: duplicate-key aggregation follows the chosen strategy.  For every
raw input, the canonical row of a key carries the strategy's reduction of
that key's quantities, and on the example rows [(A,5),(A,7)] the
aggregated quantity is 12 under sum, 7 under max and 5 under first. -/
theorem aggregation_strategy (strat : AggStrategy)
    (rows : List (GroupKey × Option Int)) (k : GroupKey)
    (h : k ∈ rows.map Prod.fst) :
    (aggregateDuplicates strat rows).lookup k =
      some (aggQty strat (qtysForKey k rows))
    ∧ (aggregateDuplicates AggStrategy.sum dupPair).lookup ("A", "") =
        some (some 12)
    ∧ (aggregateDuplicates AggStrategy.max dupPair).lookup ("A", "") =
        some (some 7)
    ∧ (aggregateDuplicates AggStrategy.first dupPair).lookup ("A", "") =
        some (some 5) := by
  refine ⟨?_, by decide, by decide, by decide⟩
  exact lookup_map_pair _ _ _ (List.mem_dedup.mpr h)

theorem aggregation_strategy_witness :
    ("A", "") ∈ dupPair.map Prod.fst
    ∧ (aggregateDuplicates AggStrategy.sum dupPair).lookup ("A", "") =
        some (aggQty AggStrategy.sum (qtysForKey ("A", "") dupPair)) :=
  ⟨by decide,
   (aggregation_strategy AggStrategy.sum dupPair ("A", "") (by decide)).1⟩

/-! ### Claim theorem for quantity coercion -/

/-- C8 (the code is not total): coercion handles thousands separators and
parenthesized negatives ("(1,204)" gives -1204) and maps null, empty and
non-numeric text to 0 — but on "inf" the source raises an uncaught
OverflowError (`int(Decimal('Infinity'))` is reached and the handler
catches only InvalidOperation and ValueError), so coercion does not return
a number for every input as the claim states. -/
theorem qty_coercion_totality_bug :
    parse_qty_to_int (some "(1,204)") = Except.ok (-1204)
    ∧ parse_qty_to_int none = Except.ok 0
    ∧ parse_qty_to_int (some "") = Except.ok 0
    ∧ parse_qty_to_int (some "abc") = Except.ok 0
    ∧ parse_qty_to_int (some "inf") = Except.error () :=
  ⟨rfl, rfl, rfl, rfl, rfl⟩

/-! ### Claim theorems over the sync applier -/

/-- C6: sync frame condition.  Every target key stays present in the
result (sync never deletes); a target-only key's row is retained exactly
as it was; and on a matched key every column outside the effective
sync-column set keeps the target's value. -/
theorem sync_frame_condition (src tgt : Table)
    (srcKeys tgtKeys syncCols : List String) (k : List Scalar) (c : String)
    (hk : k ∈ keyList tgtKeys tgt.rows) :
    (findByKey tgtKeys
      (applySyncMulti src tgt srcKeys tgtKeys syncCols).1.rows k).isSome
    ∧ (k ∉ keyList srcKeys src.rows →
        findByKey tgtKeys
            (applySyncMulti src tgt srcKeys tgtKeys syncCols).1.rows k =
          findByKey tgtKeys (dedupByKey tgtKeys tgt.rows) k)
    ∧ (k ∈ keyList srcKeys src.rows →
        c ∉ effectiveSyncCols src tgt syncCols →
        ((findByKey tgtKeys
            (applySyncMulti src tgt srcKeys tgtKeys syncCols).1.rows k).getD
          defaultRow) c =
        ((findByKey tgtKeys (dedupByKey tgtKeys tgt.rows) k).getD
          defaultRow) c) := by
  have hmain := findByKey_sync_target src tgt srcKeys tgtKeys syncCols k hk
  have hsome : (findByKey tgtKeys (dedupByKey tgtKeys tgt.rows) k).isSome :=
    findByKey_isSome_of_mem tgtKeys _ k hk
  obtain ⟨r0, hfind⟩ := Option.isSome_iff_exists.mp hsome
  have hkey : keyOf tgtKeys r0 = k := findByKey_keyOf _ _ _ _ hfind
  refine ⟨?_, ?_, ?_⟩
  · rw [hmain, hfind]
    rfl
  · intro hns
    rw [hmain, hfind]
    simp only [Option.map_some']
    rw [updateRow_of_none _ _ _ _ _ (by
      rw [hkey]
      exact findByKey_eq_none_of_not_mem _ _ _ hns)]
  · intro hss hc
    rw [hmain, hfind]
    simp only [Option.map_some', Option.getD_some]
    have hsrc : (findByKey srcKeys (dedupByKey srcKeys src.rows)
        (keyOf tgtKeys r0)).isSome := by
      rw [hkey]
      exact findByKey_isSome_of_mem srcKeys _ k hss
    obtain ⟨rs, hrs⟩ := Option.isSome_iff_exists.mp hsrc
    rw [updateRow_of_some _ _ _ _ _ _ hrs c]
    by_cases hck : c ∈ tgtKeys
    · simp [hck]
    · simp [hck, hc]

theorem sync_frame_condition_witness :
    (findByKey ["SKU"]
      (applySyncMulti syncSrcEx syncTgtEx ["SKU"] ["SKU"] ["Qty"]).1.rows
      [Scalar.str "B"]).isSome
    ∧ ([Scalar.str "B"] ∉ keyList ["SKU"] syncSrcEx.rows →
        findByKey ["SKU"]
            (applySyncMulti syncSrcEx syncTgtEx ["SKU"] ["SKU"]
              ["Qty"]).1.rows [Scalar.str "B"] =
          findByKey ["SKU"] (dedupByKey ["SKU"] syncTgtEx.rows)
            [Scalar.str "B"])
    ∧ ([Scalar.str "B"] ∈ keyList ["SKU"] syncSrcEx.rows →
        "Price" ∉ effectiveSyncCols syncSrcEx syncTgtEx ["Qty"] →
        ((findByKey ["SKU"]
            (applySyncMulti syncSrcEx syncTgtEx ["SKU"] ["SKU"]
              ["Qty"]).1.rows [Scalar.str "B"]).getD defaultRow) "Price" =
        ((findByKey ["SKU"] (dedupByKey ["SKU"] syncTgtEx.rows)
            [Scalar.str "B"]).getD defaultRow) "Price") :=
  sync_frame_condition syncSrcEx syncTgtEx ["SKU"] ["SKU"] ["Qty"]
    [Scalar.str "B"] "Price" (by decide)

/-- C10: with an empty effective sync-column set the upsert still
happens: the count still reports matched plus added, every target key's
row is returned unchanged, and every source-only key is inserted as a row
that is null outside the target key columns. -/
theorem sync_empty_cols_upserts (src tgt : Table)
    (srcKeys tgtKeys syncCols : List String) (k : List Scalar) (c : String)
    (hempty : effectiveSyncCols src tgt syncCols = [])
    (hnd : tgtKeys.Nodup) (hlen : srcKeys.length = tgtKeys.length) :
    (applySyncMulti src tgt srcKeys tgtKeys syncCols).2 =
      (syncCommonKeys src tgt srcKeys tgtKeys).length +
        (syncAddedKeys src tgt srcKeys tgtKeys).length
    ∧ (k ∈ keyList tgtKeys tgt.rows →
        findByKey tgtKeys
            (applySyncMulti src tgt srcKeys tgtKeys syncCols).1.rows k =
          findByKey tgtKeys (dedupByKey tgtKeys tgt.rows) k)
    ∧ (k ∈ keyList srcKeys src.rows → k ∉ keyList tgtKeys tgt.rows →
        (findByKey tgtKeys
          (applySyncMulti src tgt srcKeys tgtKeys syncCols).1.rows k).isSome
        ∧ (c ∉ tgtKeys →
            ((findByKey tgtKeys
                (applySyncMulti src tgt srcKeys tgtKeys syncCols).1.rows
                k).getD defaultRow) c = Scalar.null)) := by
  refine ⟨rfl, ?_, ?_⟩
  · intro hk
    rw [findByKey_sync_target src tgt srcKeys tgtKeys syncCols k hk]
    rcases hfind : findByKey tgtKeys (dedupByKey tgtKeys tgt.rows) k
      with _ | r0
    · rfl
    · simp only [Option.map_some']
      rw [hempty, updateRow_nil_cols]
  · intro hks hkt
    have hmain := findByKey_sync_added src tgt srcKeys tgtKeys syncCols k
      hnd hlen hks hkt
    have hsome : (findByKey srcKeys (dedupByKey srcKeys src.rows) k).isSome :=
      findByKey_isSome_of_mem srcKeys _ k hks
    obtain ⟨rs, hrs⟩ := Option.isSome_iff_exists.mp hsome
    constructor
    · rw [hmain, hrs]
      rfl
    · intro hc
      rw [hmain, hrs]
      simp only [Option.map_some', Option.getD_some]
      rw [addedRowFor_not_key _ _ _ _ _ hc, hempty]
      simp

theorem sync_empty_cols_upserts_witness :
    (applySyncMulti emptySyncSrcEx emptySyncTgtEx ["SKU"] ["SKU"]
        ["Qty"]).2 =
      (syncCommonKeys emptySyncSrcEx emptySyncTgtEx ["SKU"] ["SKU"]).length +
        (syncAddedKeys emptySyncSrcEx emptySyncTgtEx ["SKU"] ["SKU"]).length
    ∧ ([Scalar.str "B"] ∈ keyList ["SKU"] emptySyncTgtEx.rows →
        findByKey ["SKU"]
            (applySyncMulti emptySyncSrcEx emptySyncTgtEx ["SKU"] ["SKU"]
              ["Qty"]).1.rows [Scalar.str "B"] =
          findByKey ["SKU"] (dedupByKey ["SKU"] emptySyncTgtEx.rows)
            [Scalar.str "B"])
    ∧ ([Scalar.str "B"] ∈ keyList ["SKU"] emptySyncSrcEx.rows →
        [Scalar.str "B"] ∉ keyList ["SKU"] emptySyncTgtEx.rows →
        (findByKey ["SKU"]
          (applySyncMulti emptySyncSrcEx emptySyncTgtEx ["SKU"] ["SKU"]
            ["Qty"]).1.rows [Scalar.str "B"]).isSome
        ∧ ("Price" ∉ ["SKU"] →
            ((findByKey ["SKU"]
                (applySyncMulti emptySyncSrcEx emptySyncTgtEx ["SKU"]
                  ["SKU"] ["Qty"]).1.rows [Scalar.str "B"]).getD
              defaultRow) "Price" = Scalar.null)) :=
  sync_empty_cols_upserts emptySyncSrcEx emptySyncTgtEx ["SKU"] ["SKU"]
    ["Qty"] [Scalar.str "B"] "Price" (by decide) (by decide) (by decide)

/-- C2: idempotence of sync.  Re-applying the sync with the same source to
the first sync's result returns the identical table — no cell value
changes — and the identical touched-row count: the second call still
matches every source key (the rows added by the first call included) and
adds none, so it reports the same rows touched while writing only values
already present. -/
theorem sync_idempotent (src tgt : Table)
    (srcKeys tgtKeys syncCols : List String)
    (hlen : srcKeys.length = tgtKeys.length) (hnd : tgtKeys.Nodup) :
    applySyncMulti src (applySyncMulti src tgt srcKeys tgtKeys syncCols).1
        srcKeys tgtKeys syncCols
      = applySyncMulti src tgt srcKeys tgtKeys syncCols := by
  have hkeys := sync_result_keys src tgt srcKeys tgtKeys syncCols hlen hnd
  have hnodups := sync_result_keys_nodup src tgt srcKeys tgtKeys syncCols
    hlen hnd
  have hded : dedupByKey tgtKeys
      (applySyncMulti src tgt srcKeys tgtKeys syncCols).1.rows =
      (applySyncMulti src tgt srcKeys tgtKeys syncCols).1.rows :=
    dedupByKey_eq_self _ _ hnodups
  have hkeyList2 : keyList tgtKeys
      (applySyncMulti src tgt srcKeys tgtKeys syncCols).1.rows =
      keyList tgtKeys tgt.rows ++ syncAddedKeys src tgt srcKeys tgtKeys := by
    show (dedupByKey tgtKeys
      (applySyncMulti src tgt srcKeys tgtKeys syncCols).1.rows).map
        (keyOf tgtKeys) = _
    rw [hded]
    exact hkeys
  have hpoint : ∀ r ∈ (applySyncMulti src tgt srcKeys tgtKeys syncCols).1.rows,
      updateRow (dedupByKey srcKeys src.rows) srcKeys tgtKeys
        (effectiveSyncCols src tgt syncCols) r = r := by
    intro r hr
    have hr2 : r ∈ (dedupByKey tgtKeys tgt.rows).map
        (updateRow (dedupByKey srcKeys src.rows) srcKeys tgtKeys
          (effectiveSyncCols src tgt syncCols)) ++
        ((dedupByKey srcKeys src.rows).filter fun rs =>
          keyOf srcKeys rs ∉ (dedupByKey tgtKeys tgt.rows).map
            (keyOf tgtKeys)).map
          (addedRowFor srcKeys tgtKeys
            (effectiveSyncCols src tgt syncCols)) := hr
    rcases List.mem_append.mp hr2 with hmem | hmem
    · rcases List.mem_map.mp hmem with ⟨r0, _, hre⟩
      rw [← hre]
      exact updateRow_idem _ _ _ _ r0
    · rcases List.mem_map.mp hmem with ⟨rs, hrsmem, hre⟩
      rw [← hre]
      exact updateRow_addedRowFor _ _ _ _ rs hnd hlen
        (keyList_nodup srcKeys src.rows) (List.mem_of_mem_filter hrsmem)
  have hfilter2 : (dedupByKey srcKeys src.rows).filter (fun rs =>
      keyOf srcKeys rs ∉
        (applySyncMulti src tgt srcKeys tgtKeys syncCols).1.rows.map
          (keyOf tgtKeys)) = [] := by
    rw [List.filter_eq_nil_iff]
    intro rs hrsmem
    rw [hkeys]
    have hmem : keyOf srcKeys rs ∈ keyList srcKeys src.rows :=
      List.mem_map.mpr ⟨rs, hrsmem, rfl⟩
    by_cases hin : keyOf srcKeys rs ∈ keyList tgtKeys tgt.rows
    · simp [List.mem_append, hin]
    · have hadd : keyOf srcKeys rs ∈ syncAddedKeys src tgt srcKeys tgtKeys :=
        List.mem_filter.mpr ⟨hmem, by simpa using hin⟩
      simp [List.mem_append, hadd]
  have hrows : (applySyncMulti src
      (applySyncMulti src tgt srcKeys tgtKeys syncCols).1
      srcKeys tgtKeys syncCols).1.rows =
      (applySyncMulti src tgt srcKeys tgtKeys syncCols).1.rows := by
    show (dedupByKey tgtKeys
        (applySyncMulti src tgt srcKeys tgtKeys syncCols).1.rows).map
        (updateRow (dedupByKey srcKeys src.rows) srcKeys tgtKeys
          (effectiveSyncCols src tgt syncCols)) ++
      ((dedupByKey srcKeys src.rows).filter fun rs =>
        keyOf srcKeys rs ∉ (dedupByKey tgtKeys
          (applySyncMulti src tgt srcKeys tgtKeys syncCols).1.rows).map
            (keyOf tgtKeys)).map
        (addedRowFor srcKeys tgtKeys
          (effectiveSyncCols src tgt syncCols)) =
      (applySyncMulti src tgt srcKeys tgtKeys syncCols).1.rows
    rw [hded, hfilter2, List.map_nil, List.append_nil]
    exact (List.map_congr_left hpoint).trans
      (List.map_id (applySyncMulti src tgt srcKeys tgtKeys syncCols).1.rows)
  have hc2 : syncCommonKeys src
      (applySyncMulti src tgt srcKeys tgtKeys syncCols).1 srcKeys tgtKeys =
      syncCommonKeys src tgt srcKeys tgtKeys ++
        syncAddedKeys src tgt srcKeys tgtKeys := by
    show (keyList tgtKeys
      (applySyncMulti src tgt srcKeys tgtKeys syncCols).1.rows).filter
        (fun k => k ∈ keyList srcKeys src.rows) = _
    rw [hkeyList2, List.filter_append]
    congr 1
    rw [List.filter_eq_self]
    intro a ha
    have hmem : a ∈ keyList srcKeys src.rows := (List.mem_filter.mp ha).1
    simpa using hmem
  have ha2 : syncAddedKeys src
      (applySyncMulti src tgt srcKeys tgtKeys syncCols).1 srcKeys tgtKeys =
      [] := by
    show (keyList srcKeys src.rows).filter (fun k =>
      k ∉ keyList tgtKeys
        (applySyncMulti src tgt srcKeys tgtKeys syncCols).1.rows) = []
    rw [hkeyList2, List.filter_eq_nil_iff]
    intro a ha
    by_cases hin : a ∈ keyList tgtKeys tgt.rows
    · simp [List.mem_append, hin]
    · have hadd : a ∈ syncAddedKeys src tgt srcKeys tgtKeys :=
        List.mem_filter.mpr ⟨ha, by simpa using hin⟩
      simp [List.mem_append, hadd]
  have hcnt : (applySyncMulti src
      (applySyncMulti src tgt srcKeys tgtKeys syncCols).1
      srcKeys tgtKeys syncCols).2 =
      (applySyncMulti src tgt srcKeys tgtKeys syncCols).2 := by
    rw [applySyncMulti_snd, applySyncMulti_snd, hc2, ha2,
      List.length_append, List.length_nil]
    omega
  have glue : ∀ (a b : Table × Nat), a.1.cols = b.1.cols →
      a.1.rows = b.1.rows → a.2 = b.2 → a = b := by
    rintro ⟨⟨c1, r1⟩, n1⟩ ⟨⟨c2, r2⟩, n2⟩ h1 h2 h3
    dsimp only at h1 h2 h3
    subst h1
    subst h2
    subst h3
    rfl
  exact glue _ _ rfl hrows hcnt

theorem sync_idempotent_witness :
    applySyncMulti syncSrcEx
        (applySyncMulti syncSrcEx syncTgtEx ["SKU"] ["SKU"] ["Qty"]).1
        ["SKU"] ["SKU"] ["Qty"]
      = applySyncMulti syncSrcEx syncTgtEx ["SKU"] ["SKU"] ["Qty"] :=
  sync_idempotent syncSrcEx syncTgtEx ["SKU"] ["SKU"] ["Qty"]
    (by decide) (by decide)

end InventoryRecon
